import Mathlib

/-!
Verification of the chrono24 scraper core (`src/scraper.py`) against its
natural-language specification.  Each Python function relevant to the frozen
claims is shallowly embedded as an executable Lean definition: file-system
effects become explicit parameters/results, the browser session becomes an
oracle record, and randomness becomes an explicit jitter argument.
-/

namespace Scraper

/-! ## Data model

An item record as assembled by `process_watch_detail` (`scraper.py:283`):
`{url, name, price, description, specifications}`. -/

structure Watch where
  url : String
  name : String
  price : String
  description : String
  specifications : List (String × String)
deriving DecidableEq

/-- Progress Cursor per brand: `{"current_page": ..., "processed_urls": [...]}`
(`scraper.py:127`).  `processed_urls` is kept as a list; the orchestrator
treats it as a set (membership tests, insert-if-absent). -/
structure Progress where
  current_page : Nat
  processed_urls : List String
deriving DecidableEq

/-! ## Dataset Store (`save_watches_to_json`, `scraper.py:150-181`)

The file system is made explicit: the function takes the collection currently
persisted (`existing_watches`, which the Python code reads from the JSON file;
an absent or malformed file yields `[]`) and returns the collection persisted
afterwards together with a flag recording whether a file write happened.
The Python body:
  existing_urls = {w.get('url') for w in existing_watches}
  new_watches   = [w for w in watches if w.get("url") not in existing_urls]
  if not new_watches: return            -- write skipped
  all_watches = existing_watches + new_watches; write all_watches -/

def save_watches_to_json (watches : List Watch) (existing_watches : List Watch) :
    List Watch × Bool :=
  let existing_urls := existing_watches.map (fun w => w.url)
  let new_watches := watches.filter (fun w => !(existing_urls.contains w.url))
  if new_watches.isEmpty then
    (existing_watches, false)
  else
    (existing_watches ++ new_watches, true)

/-- Number of stored records carrying a given URL. -/
def countUrl (store : List Watch) (u : String) : Nat :=
  (store.filter (fun w => w.url == u)).length

/-! ## Rate Controller (`adaptive_delay`, `scraper.py:102-116`)

Arithmetic is modelled over `ℚ`; the single random draw of the taken branch is
passed in as the explicit `jitter` argument. -/

def adaptive_delay (response_time : ℚ) (status_code : Int) (jitter : ℚ) : ℚ :=
  let base_delay := min (response_time * (3 / 2)) 3
  if status_code ≥ 429 then
    base_delay * 5 + jitter
  else if status_code ≥ 500 then
    base_delay * 3 + jitter
  else
    base_delay + jitter

/-- The polite delay is `uniform(2,5)`; modelled as its drawn value. -/
def polite_delay (draw : ℚ) : ℚ := draw

/-! ## Progress Store (`load_progress`, `scraper.py:118-127`)

The state of the brand's progress file: absent, present but not JSON-parseable
(`json.JSONDecodeError`), or parsed. -/

inductive ProgressFile where
  | absent
  | malformed
  | parsed (progress : Progress)
deriving DecidableEq

/-- `load_progress`: an absent file falls through to the default; a malformed
file logs an error and falls through to the same default; a parsed file is
returned as-is.  The function is total: no input makes it raise. -/
def load_progress : ProgressFile → Progress
  | .absent => ⟨1, []⟩
  | .malformed => ⟨1, []⟩
  | .parsed progress => progress

/-! ### Dataset Store lemmas -/

/-- The set of new records appended by one `save_watches_to_json` call. -/
def newWatches (watches existing : List Watch) : List Watch :=
  watches.filter (fun w => !((existing.map (fun w => w.url)).contains w.url))

/-! ## Specification-table extraction (`extract_specs`, `scraper.py:189-228`)

A table row is modelled after its two cells have been located
(`th`/`td:first-child` and `td:last-child`/`td:nth-child(2)`): `key` and
`value` carry the raw `text_content()` of those cells. -/

structure SpecRow where
  key : String
  value : String
deriving DecidableEq

/-! Character-list implementations of the string primitives the Python code
uses (`str.strip`, `str.lower`, `str.split`, substring search).  They are
defined by structural recursion so that concrete inputs evaluate inside the
kernel.  `str.strip()` removes leading/trailing whitespace; Python's
whitespace set also has `\x0b`/`\x0c`, which never occur in the inputs
considered here. -/

def charsTrim (l : List Char) : List Char :=
  ((l.dropWhile Char.isWhitespace).reverse.dropWhile Char.isWhitespace).reverse

def strTrim (s : String) : String := String.mk (charsTrim s.data)

def strToLower (s : String) : String := String.mk (s.data.map Char.toLower)

def splitOnChar (c : Char) : List Char → List (List Char)
  | [] => [[]]
  | x :: xs =>
    match splitOnChar c xs with
    | [] => [[x]]
    | h :: t => if x = c then [] :: h :: t else (x :: h) :: t

def intercalateChar (c : Char) : List (List Char) → List Char
  | [] => []
  | [l] => l
  | l :: ls => l ++ c :: intercalateChar c ls

/-- Substring test over character lists (used to model Python's `re` search
for the literal part of the pattern). -/
def hasSubstrChars (pat : List Char) : List Char → Bool
  | [] => pat.isEmpty
  | c :: rest => pat.isPrefixOf (c :: rest) || hasSubstrChars pat rest

/-- Models `re.sub(r".*function docReady[\s\S]*", "", value).strip()`.
Without `re.DOTALL`, `.*` cannot cross a newline, so the leftmost match
starts at the beginning of the first line containing `"function docReady"`
and extends (via `[\s\S]*`) to the end of the string; the replacement by the
empty string therefore keeps exactly the lines before that line.  The final
`.strip()` of the Python code is folded in (it also absorbs the trailing
newline kept by the prefix). -/
def docReadySub (v : String) : String :=
  let lines := splitOnChar '\n' v.data
  let keep := lines.takeWhile (fun ln => !(hasSubstrChars "function docReady".data ln))
  strTrim (String.mk (intercalateChar '\n' keep))

/-- Python `dict` assignment `specs[key] = value`: an existing key keeps its
position and gets the new value; a new key is appended. -/
def dictInsert (specs : List (String × String)) (k v : String) :
    List (String × String) :=
  if specs.any (fun p => p.1 == k) then
    specs.map (fun p => if p.1 == k then (k, v) else p)
  else
    specs ++ [(k, v)]

/-- The row-skip condition of `extract_specs` (`scraper.py:211-221`), taking
the raw cell texts: key/value are stripped, the value has the docReady loader
boilerplate removed, and a row is skipped when the key lowercases to
`"basic info"`, or the key lowercases to `"description"` while the stripped
value also lowercases to `"description"`, or the key is empty. -/
def specRowSkipped (row : SpecRow) : Bool :=
  let key := strTrim row.key
  let value := docReadySub (strTrim row.value)
  let key_lower := strToLower key
  key_lower == "basic info"
    || (key_lower == "description" && strToLower (strTrim value) == "description")
    || key == ""

def processSpecRow (specs : List (String × String)) (row : SpecRow) :
    List (String × String) :=
  if specRowSkipped row then specs
  else dictInsert specs (strTrim row.key) (docReadySub (strTrim row.value))

/-- `extract_specs` restricted to the rows of the tables matched by the first
selector that yields any specs: the dict is built by folding the rows in
document order. -/
def extract_specs (rows : List SpecRow) : List (String × String) :=
  rows.foldl processSpecRow []

/-! ## Brand Orchestrator (`process_brand`, `scraper.py:432-501`)

The browser and network are abstracted into an oracle record:
`pageAttempt p i` is the outcome of the `i`-th attempt of
`process_brand_page` for listing page `p` (`none` = an exception was raised,
`some b` = the function returned `b`); `listing p` is what
`process_listing_page` returns for page `p`; `detail u` is what
`process_watch_detail` returns for item URL `u` (`none` covers both the
internal `return None` paths and any caught exception).  The run's externally
visible behaviour is collected in a `CrawlState` trace. -/

structure BrandEnv where
  pageAttempt : Nat → Nat → Option Bool
  listing : Nat → List String
  detail : String → Option Watch

structure CrawlState where
  brand_watches : List Watch
  processed : List String
  listingRequests : List Nat
  detailRequests : List String
  progressSaves : List Progress
  datasetAppends : List (List Watch)
deriving DecidableEq

/-- The retry loop of the `with_retry` decorator (`scraper.py:51-72`): attempt
`f` while fewer than `fuel` attempts were made; on `none` (a raised
exception) retry, on `some` return immediately.  Result: number of attempts
made and the final outcome (`none` = the last exception is re-raised). -/
def retryCall {α : Type} (f : Nat → Option α) : Nat → Nat → Nat × Option α
  | tried, 0 => (tried, none)
  | tried, fuel + 1 =>
    match f tried with
    | some a => (tried + 1, some a)
    | none => retryCall f (tried + 1) fuel

def with_retry {α : Type} (max_retries : Nat) (f : Nat → Option α) :
    Nat × Option α :=
  retryCall f 0 max_retries

/-- `process_brand_page` is decorated `@with_retry(max_retries=3)`
(`scraper.py:397`). -/
def process_brand_page (env : BrandEnv) (page_num : Nat) : Nat × Option Bool :=
  with_retry 3 (env.pageAttempt page_num)

/-- `processed_urls` is a Python `set`; adding an existing element is a
no-op. -/
def setAdd (l : List String) (u : String) : List String :=
  if l.contains u then l else l ++ [u]

/-- The inner item loop of `process_brand` (`scraper.py:465-483`): every new
URL is passed to `process_watch_detail` exactly once (no retry decorator on
that function); on success the record is appended to the run's list, saved to
the Dataset Store as a one-record batch, the URL is added to
`processed_urls`, and the Progress Cursor is saved with the current page
number; on failure (`None` or a caught exception) the loop just continues. -/
def itemLoop (env : BrandEnv) (page_num : Nat) :
    List String → CrawlState → CrawlState
  | [], st => st
  | url :: rest, st =>
    let st1 := { st with detailRequests := st.detailRequests ++ [url] }
    match env.detail url with
    | some w =>
      let processed1 := setAdd st1.processed url
      itemLoop env page_num rest
        { st1 with
          brand_watches := st1.brand_watches ++ [w]
          datasetAppends := st1.datasetAppends ++ [[w]]
          processed := processed1
          progressSaves := st1.progressSaves ++ [⟨page_num, processed1⟩] }
    | none => itemLoop env page_num rest st1

/-- Trace bookkeeping: record that a listing page was requested. -/
def addListingReq (st : CrawlState) (p : Nat) : CrawlState :=
  { st with listingRequests := st.listingRequests ++ [p] }

/-- A `save_progress` call (`scraper.py:129-134`): the cursor file is
overwritten; the trace records the saved cursor. -/
def addProgressSave (st : CrawlState) (pr : Progress) : CrawlState :=
  { st with progressSaves := st.progressSaves ++ [pr] }

/-- The page loop of `process_brand` (`scraper.py:444-489`).  Each iteration
requests the listing page via `process_brand_page`; if all three attempts
raised, the re-raised exception is caught by the brand-level handler, which
saves the Progress Cursor at the current page and returns (`scraper.py:
494-501`); a `False` return or an empty listing or no new URLs breaks the
loop; otherwise the item loop runs and the cursor is saved with
`current_page = page_num + 1`. -/
def pageLoop (env : BrandEnv) : List Nat → CrawlState → CrawlState
  | [], st => st
  | page_num :: rest, st =>
    let st1 := addListingReq st page_num
    match (process_brand_page env page_num).2 with
    | none => addProgressSave st1 ⟨page_num, st.processed⟩
    | some false => st1
    | some true =>
      let watch_urls := env.listing page_num
      if watch_urls.isEmpty then st1
      else
        let new_urls := watch_urls.filter (fun u => !(st.processed.contains u))
        if new_urls.isEmpty then st1
        else
          let st2 := itemLoop env page_num new_urls st1
          pageLoop env rest (addProgressSave st2 ⟨page_num + 1, st2.processed⟩)

/-- `process_brand`: load the cursor, then iterate
`for page_num in range(start_page, 100)`. -/
def process_brand (env : BrandEnv) (progress : Progress) : CrawlState :=
  let start_page := progress.current_page
  pageLoop env (List.range' start_page (100 - start_page))
    { brand_watches := []
      processed := progress.processed_urls
      listingRequests := []
      detailRequests := []
      progressSaves := []
      datasetAppends := [] }

/-! ### Orchestrator theorems (Claims C3, C8, C9) -/

def envResume : BrandEnv :=
  ⟨fun _ _ => some true, fun _ => [], fun _ => none⟩

def envCeiling : BrandEnv :=
  ⟨fun _ _ => some true, fun _ => ["u"], fun _ => none⟩

def envFresh : BrandEnv :=
  ⟨fun _ _ => some true, fun p => [String.mk (List.replicate p 'a')], fun _ => none⟩

def envItem : BrandEnv :=
  ⟨fun _ _ => some true, fun p => if p = 1 then ["u"] else [], fun _ => none⟩

def envNoRetry : BrandEnv := ⟨fun _ _ => none, fun _ => [], fun _ => none⟩

/-! ## URL parsing (CPython `urllib.parse`, used by `get_pagination_url` and
`make_absolute_url`)

`urlsplit`/`urlparse`/`urljoin` are modelled on character lists, following
the CPython implementation: leading C0-control/space characters are stripped
and embedded tab/CR/LF removed; a scheme is split off at the first `:` when
the prefix is non-empty, starts with an ASCII letter and uses only scheme
characters (and is lowercased); a netloc is split off after `//` up to the
first of `/?#` (an unbalanced bracket raises `ValueError`, modelled as
`Except.error`); then the fragment is split at the first `#` and the query at
the first `?`.  Bracketed-host validation of newer CPython is elided (no
input considered here contains brackets). -/

def scheme_chars : List Char :=
  "abcdefghijklmnopqrstuvwxyzABCDEFGHIJKLMNOPQRSTUVWXYZ0123456789+-.".data

def splitAtFirstChar (c : Char) : List Char → List Char × Option (List Char)
  | [] => ([], none)
  | a :: as =>
    if a = c then ([], some as)
    else
      match splitAtFirstChar c as with
      | (pre, rest) => (a :: pre, rest)

def takeUntilAny (stops : List Char) : List Char → List Char × List Char
  | [] => ([], [])
  | a :: as =>
    if a ∈ stops then ([], a :: as)
    else
      match takeUntilAny stops as with
      | (pre, rest) => (a :: pre, rest)

def isC0OrSpace (c : Char) : Bool := c.toNat ≤ 0x20

def isUnsafeUrlChar (c : Char) : Bool := c = '\t' || c = '\r' || c = '\n'

/-- Scheme detection of `urlsplit`: `i = url.find(':')`; the scheme is split
off when `i > 0`, the first character is an ASCII letter and all characters
before `:` are scheme characters; the scheme is lowercased.  Otherwise the
default scheme is used. -/
def splitScheme (defaultScheme : List Char) (url : List Char) :
    List Char × List Char :=
  match splitAtFirstChar ':' url with
  | (pre, some rest) =>
    if pre ≠ [] ∧ (pre.headD ' ').isAlpha = true
        ∧ pre.all (fun c => c ∈ scheme_chars) = true then
      (pre.map Char.toLower, rest)
    else (defaultScheme, url)
  | (_, none) => (defaultScheme, url)

structure SplitUrl where
  scheme : List Char
  netloc : List Char
  path : List Char
  query : List Char
  fragment : List Char
deriving DecidableEq

/-- Fragment (first `#`) and query (first `?`) splitting of `urlsplit`. -/
def finishSplit (scheme netloc rest : List Char) : SplitUrl :=
  let fr := splitAtFirstChar '#' rest
  let pq := splitAtFirstChar '?' fr.1
  ⟨scheme, netloc, pq.1, pq.2.getD [], fr.2.getD []⟩

def urlsplitChars (defaultScheme : List Char) (url0 : List Char) :
    Except String SplitUrl :=
  let url1 := url0.dropWhile isC0OrSpace
  let url := url1.filter (fun c => !(isUnsafeUrlChar c))
  let sr := splitScheme defaultScheme url
  let scheme := sr.1
  let rest := sr.2
  if rest.take 2 = ['/', '/'] then
    let nr := takeUntilAny ['/', '?', '#'] (rest.drop 2)
    if ('[' ∈ nr.1 ∧ ']' ∉ nr.1) ∨ (']' ∈ nr.1 ∧ '[' ∉ nr.1) then
      Except.error "Invalid IPv6 URL"
    else
      Except.ok (finishSplit scheme nr.1 nr.2)
  else Except.ok (finishSplit scheme [] rest)

structure ParseUrl where
  scheme : List Char
  netloc : List Char
  path : List Char
  params : List Char
  query : List Char
  fragment : List Char
deriving DecidableEq

def splitAtLastChar (c : Char) (l : List Char) : List Char × Option (List Char) :=
  match splitAtFirstChar c l.reverse with
  | (revAfter, some revBefore) => (revBefore.reverse, some revAfter.reverse)
  | (_, none) => (l, none)

/-- `_splitparams`: split `;params` off the last path segment. -/
def splitparamsChars (pathIn : List Char) : List Char × List Char :=
  if '/' ∈ pathIn then
    match splitAtLastChar '/' pathIn with
    | (pre, some last) =>
      match splitAtFirstChar ';' last with
      | (a, some b) => (pre ++ '/' :: a, b)
      | (_, none) => (pathIn, [])
    | (_, none) => (pathIn, [])
  else
    match splitAtFirstChar ';' pathIn with
    | (a, some b) => (a, b)
    | (_, none) => (pathIn, [])

def uses_params : List (List Char) :=
  [[], "ftp".data, "hdl".data, "prospero".data, "http".data, "imap".data,
   "https".data, "shttp".data, "rtsp".data, "rtspu".data, "sip".data,
   "sips".data, "mms".data, "sftp".data, "tel".data]

/-- `urlparse` = `urlsplit` plus params splitting when the scheme uses
params and the path contains `;`. -/
def urlparseChars (defaultScheme : List Char) (url : List Char) :
    Except String ParseUrl := do
  let r ← urlsplitChars defaultScheme url
  if r.scheme ∈ uses_params ∧ ';' ∈ r.path then
    let pp := splitparamsChars r.path
    return ⟨r.scheme, r.netloc, pp.1, pp.2, r.query, r.fragment⟩
  else
    return ⟨r.scheme, r.netloc, r.path, [], r.query, r.fragment⟩

def charsEndsWith (l suffix : List Char) : Bool := suffix.isSuffixOf l

/-- `get_pagination_url` (`scraper.py:74-100`): parse the base URL, return it
unchanged for page 1, otherwise rewrite the path (`index.htm` tail replaced
by `index-{n}.htm`, trailing-slash path appended with `index-{n}.htm`, any
other path appended with `/index-{n}.htm`) and reconstruct
`{scheme}://{netloc}{new_path}` plus `?{query}` when the query is non-empty.
The `urlparse` call precedes the `page_num == 1` early return, so a parse
error propagates (modelled by `Except`). -/
def get_pagination_url (base_url : String) (page_num : Nat) :
    Except String String := do
  let parsed ← urlparseChars [] base_url.data
  if page_num = 1 then
    return base_url
  else
    let path := parsed.path
    let new_path :=
      if charsEndsWith path "index.htm".data then
        path.take (path.length - 9) ++ ("index-" ++ toString page_num ++ ".htm").data
      else if charsEndsWith path "/".data then
        path ++ ("index-" ++ toString page_num ++ ".htm").data
      else
        path ++ ("/index-" ++ toString page_num ++ ".htm").data
    let out := parsed.scheme ++ ':' :: '/' :: '/' :: parsed.netloc ++ new_path
    let out2 := if parsed.query ≠ [] then out ++ '?' :: parsed.query else out
    return String.mk out2

/-- The well-formed absolute URLs quantified over in the pagination claim:
`scheme://netloc/path` with an optional `?query`. -/
def mkUrl (scheme netloc path query : String) : String :=
  scheme ++ "://" ++ netloc ++ path ++ (if query = "" then "" else "?" ++ query)

def queryPartChars (q : String) : List Char := if q = "" then [] else '?' :: q.data

/-- Well-formedness of the scheme component: non-empty, lowercase ASCII
letters (hence valid scheme characters, fixed by lowercasing, not `:` and not
control/unsafe characters). -/
abbrev schemeOK (s : String) : Prop :=
  s.data ≠ [] ∧ ∀ c ∈ s.data,
    c.isAlpha = true ∧ c ∈ scheme_chars ∧ Char.toLower c = c ∧ c ≠ ':'
      ∧ 0x20 < c.toNat ∧ isUnsafeUrlChar c = false

abbrev netlocOK (nl : String) : Prop :=
  ∀ c ∈ nl.data, c ≠ '/' ∧ c ≠ '?' ∧ c ≠ '#' ∧ c ≠ '[' ∧ c ≠ ']'
    ∧ isUnsafeUrlChar c = false

abbrev pathOK (p : String) : Prop :=
  (p.data = [] ∨ p.data.head? = some '/')
  ∧ ∀ c ∈ p.data, c ≠ '?' ∧ c ≠ '#' ∧ c ≠ ';' ∧ isUnsafeUrlChar c = false

abbrev queryOK (q : String) : Prop :=
  ∀ c ∈ q.data, c ≠ '#' ∧ isUnsafeUrlChar c = false

/-! ## `make_absolute_url` (`scraper.py:183-187`) and CPython `urljoin` -/

def uses_relative : List (List Char) :=
  [[], "ftp".data, "http".data, "gopher".data, "nntp".data, "imap".data,
   "wais".data, "file".data, "https".data, "shttp".data, "mms".data,
   "prospero".data, "rtsp".data, "rtspu".data, "sftp".data, "svn".data,
   "svn+ssh".data, "ws".data, "wss".data]

def uses_netloc : List (List Char) :=
  [[], "ftp".data, "http".data, "gopher".data, "nntp".data, "telnet".data,
   "imap".data, "wais".data, "file".data, "mms".data, "https".data,
   "shttp".data, "snews".data, "prospero".data, "rtsp".data, "rtspu".data,
   "rsync".data, "svn".data, "svn+ssh".data, "sftp".data, "nfs".data,
   "git".data, "git+ssh".data, "ws".data, "wss".data]

/-- CPython `urlunsplit`. -/
def urlunsplitChars (u : SplitUrl) : List Char :=
  let url0 := u.path
  let url1 :=
    if u.netloc ≠ [] ∨ (url0 ≠ [] ∧ url0.take 2 = ['/', '/']) then
      let url' := if url0 ≠ [] ∧ url0.head? ≠ some '/' then '/' :: url0 else url0
      '/' :: '/' :: (u.netloc ++ url')
    else url0
  let url2 := if u.scheme ≠ [] then u.scheme ++ ':' :: url1 else url1
  let url3 := if u.query ≠ [] then url2 ++ '?' :: u.query else url2
  if u.fragment ≠ [] then url3 ++ '#' :: u.fragment else url3

/-- The dot-segment resolution loop of `urljoin` (`..` pops, `.` is
skipped, popping an empty stack is ignored). -/
def resolveDots : List (List Char) → List (List Char) → List (List Char)
  | [], acc => acc
  | seg :: rest, acc =>
    if seg = ['.', '.'] then resolveDots rest acc.dropLast
    else if seg = ['.'] then resolveDots rest acc
    else resolveDots rest (acc ++ [seg])

/-- `segments[1:-1] = filter(None, segments[1:-1])`: drop empty segments
strictly between the first and last element. -/
def filterMiddle (l : List (List Char)) : List (List Char) :=
  match l with
  | [] => []
  | [a] => [a]
  | a :: rest => a :: (rest.dropLast.filter (fun s => s ≠ []) ++ [rest.getLastD []])

/-- CPython `urljoin` (3.11): split both URLs (the relative one with the
base's scheme as default); a different scheme or one outside `uses_relative`
returns the relative URL unchanged; an own netloc is kept; an empty path
inherits the base path (and query, when no own query); otherwise the paths
are merged segment-wise with dot-segment resolution. -/
def urljoinChars (base url : List Char) : Except String (List Char) :=
  if base = [] then Except.ok url
  else if url = [] then Except.ok base
  else
    match urlsplitChars [] base with
    | Except.error e => Except.error e
    | Except.ok b =>
      match urlsplitChars b.scheme url with
      | Except.error e => Except.error e
      | Except.ok r =>
        if r.scheme ≠ b.scheme ∨ r.scheme ∉ uses_relative then
          Except.ok url
        else if r.scheme ∈ uses_netloc ∧ r.netloc ≠ [] then
          Except.ok (urlunsplitChars ⟨r.scheme, r.netloc, r.path, r.query, r.fragment⟩)
        else
          let netloc := if r.scheme ∈ uses_netloc then b.netloc else r.netloc
          if r.path = [] then
            let query := if r.query = [] then b.query else r.query
            Except.ok (urlunsplitChars ⟨r.scheme, netloc, b.path, query, r.fragment⟩)
          else
            let base_parts := splitOnChar '/' b.path
            let base_parts2 :=
              if base_parts.getLastD [] ≠ [] then base_parts.dropLast else base_parts
            let segments :=
              if r.path.head? = some '/' then splitOnChar '/' r.path
              else filterMiddle (base_parts2 ++ splitOnChar '/' r.path)
            let resolved := resolveDots segments []
            let resolved2 :=
              if segments.getLastD [] = ['.'] ∨ segments.getLastD [] = ['.', '.'] then
                resolved ++ [[]]
              else resolved
            let joined := intercalateChar '/' resolved2
            let path2 := if joined = [] then ['/'] else joined
            Except.ok (urlunsplitChars ⟨r.scheme, netloc, path2, r.query, r.fragment⟩)

def strStartsWith (s pre : String) : Bool := pre.data.isPrefixOf s.data

def BASE_URL : String := "https://www.chrono24.com"

/-- `make_absolute_url`: a URL already starting with `http://` or `https://`
is returned unchanged; anything else is stripped of leading slashes and
joined onto the chrono24 origin with `urljoin`.  A `ValueError` raised inside
`urljoin` propagates (modelled by `Except`). -/
def make_absolute_url (url : String) : Except String String :=
  if !(strStartsWith url "http://" || strStartsWith url "https://") then
    (urljoinChars BASE_URL.data (url.data.dropWhile (fun c => c = '/'))).map
      (fun l => String.mk l)
  else Except.ok url

/-- Relative references for which the amended claim asserts chrono24-origin
results: no scheme separator `:`, none of the characters CPython's URL
cleaning removes (tab/CR/LF), and not starting — after stripping leading
slashes — with a C0-control/space character that the cleaning would strip. -/
abbrev cleanRel (u : String) : Prop :=
  ':' ∉ u.data ∧ '\t' ∉ u.data ∧ '\r' ∉ u.data ∧ '\n' ∉ u.data
  ∧ (u.data.dropWhile (fun c => c = '/') = []
     ∨ 0x20 < ((u.data.dropWhile (fun c => c = '/')).headD ' ').toNat)

/-! ## Theorems -/

theorem contains_true_iff {α : Type} [BEq α] [LawfulBEq α] (l : List α) (a : α) :
    l.contains a = true ↔ a ∈ l := by
  unfold List.contains
  exact List.elem_iff

theorem save_fst_eq (watches existing : List Watch) :
    (save_watches_to_json watches existing).1 = existing ++ newWatches watches existing := by
  simp only [save_watches_to_json, newWatches]
  by_cases h :
      watches.filter (fun w => !((existing.map (fun w => w.url)).contains w.url)) = []
  · rw [h]
    simp
  · rw [if_neg (fun hh => h (List.isEmpty_iff.mp hh))]

theorem mem_newWatches {watches existing : List Watch} {w : Watch}
    (hw : w ∈ newWatches watches existing) :
    w ∈ watches ∧ w.url ∉ existing.map (fun w => w.url) := by
  unfold newWatches at hw
  have h := List.of_mem_filter hw
  refine ⟨List.mem_of_mem_filter hw, ?_⟩
  simpa using h

theorem countUrl_append (a b : List Watch) (u : String) :
    countUrl (a ++ b) u = countUrl a u + countUrl b u := by
  unfold countUrl
  rw [List.filter_append, List.length_append]

theorem countUrl_pos_iff (store : List Watch) (u : String) :
    0 < countUrl store u ↔ u ∈ store.map (fun w => w.url) := by
  unfold countUrl
  rw [List.length_pos_iff_exists_mem]
  constructor
  · rintro ⟨w, hw⟩
    have h1 := List.mem_of_mem_filter hw
    have h2 := List.of_mem_filter hw
    simp only [beq_iff_eq] at h2
    exact List.mem_map.mpr ⟨w, h1, h2⟩
  · intro hu
    obtain ⟨w, hw, hwu⟩ := List.mem_map.mp hu
    exact ⟨w, List.mem_filter.mpr ⟨hw, by simp [hwu]⟩⟩

theorem countUrl_newWatches_of_mem (watches existing : List Watch) (u : String)
    (hu : u ∈ existing.map (fun w => w.url)) :
    countUrl (newWatches watches existing) u = 0 := by
  by_contra h
  have hpos : 0 < countUrl (newWatches watches existing) u := Nat.pos_of_ne_zero h
  rw [countUrl_pos_iff] at hpos
  obtain ⟨w, hw, hwu⟩ := List.mem_map.mp hpos
  obtain ⟨-, hnot⟩ := mem_newWatches hw
  exact hnot (hwu ▸ hu)

theorem countUrl_newWatches_of_not_mem (watches existing : List Watch) (u : String)
    (hu : u ∉ existing.map (fun w => w.url)) :
    countUrl (newWatches watches existing) u = countUrl watches u := by
  unfold countUrl newWatches
  rw [List.filter_filter]
  congr 1
  apply List.filter_congr
  intro w hw
  by_cases hwu : w.url = u
  · have hc : (existing.map (fun w => w.url)).contains w.url = false := by
      rw [Bool.eq_false_iff]
      intro hcontra
      exact hu (hwu ▸ (contains_true_iff _ _).mp hcontra)
    rw [hc]
    simp [hwu]
  · have hb : (w.url == u) = false := by simpa using hwu
    rw [hb]
    simp

/-- All URLs of the incoming batch are present after one append. -/
theorem batch_urls_present (watches existing : List Watch) (w : Watch)
    (hw : w ∈ watches) :
    w.url ∈ (save_watches_to_json watches existing).1.map (fun w => w.url) := by
  rw [save_fst_eq, List.map_append]
  by_cases h : w.url ∈ existing.map (fun w => w.url)
  · exact List.mem_append_left _ h
  · refine List.mem_append_right _ ?_
    refine List.mem_map.mpr ⟨w, ?_, rfl⟩
    unfold newWatches
    refine List.mem_filter.mpr ⟨hw, ?_⟩
    simpa using h

theorem save_noop_of_all_present (existing watches : List Watch)
    (h : ∀ w ∈ watches, w.url ∈ existing.map (fun w => w.url)) :
    save_watches_to_json watches existing = (existing, false) := by
  have hfil :
      watches.filter (fun w => !((existing.map (fun w => w.url)).contains w.url)) = [] := by
    rw [List.filter_eq_nil_iff]
    intro w hw
    rw [(contains_true_iff _ _).mpr (h w hw)]
    decide
  simp only [save_watches_to_json]
  rw [hfil]
  simp

theorem countUrl_eq_zero_of_not_mem (store : List Watch) (u : String)
    (h : u ∉ store.map (fun w => w.url)) : countUrl store u = 0 := by
  by_contra hc
  exact h ((countUrl_pos_iff _ _).mp (Nat.pos_of_ne_zero hc))

theorem countUrl_eq_count_map (l : List Watch) (u : String) :
    countUrl l u = (l.map (fun w => w.url)).count u := by
  induction l with
  | nil => rfl
  | cons w ws ih =>
    unfold countUrl at *
    rw [List.filter_cons, List.map_cons, List.count_cons]
    by_cases h : w.url = u
    · simp [h, ih, Nat.add_comm]
    · have hb : (w.url == u) = false := by simpa using h
      have hb2 : (u == w.url) = false := by simpa using fun hh => h hh.symm
      simp [hb, hb2, ih]

/-- Claim C1 (amended).  A Dataset Store append whose records all carry URLs
already stored writes nothing and leaves the store unchanged; re-appending the
same batch a second time never writes; and, provided the incoming batch has
pairwise-distinct URLs and the store held at most one record per URL, after
appending the batch twice each batch URL is stored exactly once. -/
theorem save_append_idempotent (existing watches : List Watch) :
    ((∀ w ∈ watches, w.url ∈ existing.map (fun w => w.url)) →
      save_watches_to_json watches existing = (existing, false))
    ∧ save_watches_to_json watches (save_watches_to_json watches existing).1 =
        ((save_watches_to_json watches existing).1, false)
    ∧ (∀ u, (∀ v, countUrl existing v ≤ 1) →
        (watches.map (fun w => w.url)).Nodup →
        u ∈ watches.map (fun w => w.url) →
        countUrl (save_watches_to_json watches
          (save_watches_to_json watches existing).1).1 u = 1) := by
  have hsecond : save_watches_to_json watches (save_watches_to_json watches existing).1 =
      ((save_watches_to_json watches existing).1, false) :=
    save_noop_of_all_present _ _ (fun w hw => batch_urls_present watches existing w hw)
  refine ⟨save_noop_of_all_present existing watches, hsecond, ?_⟩
  intro u hexist hnodup hu
  rw [hsecond]
  rw [save_fst_eq, countUrl_append]
  by_cases hmem : u ∈ existing.map (fun w => w.url)
  · rw [countUrl_newWatches_of_mem watches existing u hmem]
    have h1 : 0 < countUrl existing u := (countUrl_pos_iff _ _).mpr hmem
    have h2 : countUrl existing u ≤ 1 := hexist u
    omega
  · rw [countUrl_eq_zero_of_not_mem existing u hmem,
      countUrl_newWatches_of_not_mem watches existing u hmem,
      countUrl_eq_count_map]
    have h1 : 0 < (watches.map (fun w => w.url)).count u :=
      List.count_pos_iff.mpr hu
    have h2 : (watches.map (fun w => w.url)).count u ≤ 1 :=
      List.nodup_iff_count_le_one.mp hnodup u
    omega

/-- Claim C1 counterexample.  A batch containing two distinct records with the
same URL, appended twice into an empty store, leaves two stored copies of that
URL, not exactly one: the second append writes nothing, but the first append
already stored both copies. -/
theorem save_append_idempotent_cex :
    countUrl (save_watches_to_json
      [⟨"u", "A", "", "", []⟩, ⟨"u", "B", "", "", []⟩]
      (save_watches_to_json
        [⟨"u", "A", "", "", []⟩, ⟨"u", "B", "", "", []⟩] []).1).1 "u" = 2
    ∧ (2 : Nat) ≠ 1 := by
  constructor
  · rfl
  · decide

/-- Claim C1 witness: a concrete all-already-present append is a no-op. -/
theorem save_append_idempotent_witness :
    save_watches_to_json [⟨"w", "N", "p", "d", []⟩] [⟨"w", "N", "p", "d", []⟩]
      = ([⟨"w", "N", "p", "d", []⟩], false) :=
  (save_append_idempotent [⟨"w", "N", "p", "d", []⟩] [⟨"w", "N", "p", "d", []⟩]).1
    (by decide)

/-- Claim C7 (amended).  Unconditionally — for every prior store and every
incoming batch — the prior records remain an unmodified prefix of the stored
sequence (append-only); and provided the prior store holds at most one record
per URL and the incoming batch itself holds at most one record per URL, after
the append the store still holds at most one record per URL. -/
theorem save_preserves_uniqueness (existing watches : List Watch) :
    (∃ t, (save_watches_to_json watches existing).1 = existing ++ t)
    ∧ ((∀ v, countUrl existing v ≤ 1) → (∀ v, countUrl watches v ≤ 1) →
        ∀ v, countUrl (save_watches_to_json watches existing).1 v ≤ 1) := by
  refine ⟨⟨newWatches watches existing, save_fst_eq watches existing⟩, ?_⟩
  intro hexist hbatch v
  rw [save_fst_eq, countUrl_append]
  by_cases hmem : v ∈ existing.map (fun w => w.url)
  · rw [countUrl_newWatches_of_mem watches existing v hmem]
    have := hexist v
    omega
  · rw [countUrl_eq_zero_of_not_mem existing v hmem,
      countUrl_newWatches_of_not_mem watches existing v hmem]
    have := hbatch v
    omega

/-- Claim C7 counterexample.  With an empty (hence per-URL unique) prior store,
a batch holding two records with the same URL is appended without internal
deduplication: the store ends up with two records for that URL. -/
theorem save_preserves_uniqueness_cex :
    countUrl (save_watches_to_json
      [⟨"q", "X", "", "", []⟩, ⟨"q", "Y", "", "", []⟩] []).1 "q" = 2
    ∧ ¬((2 : Nat) ≤ 1) := by
  constructor
  · rfl
  · decide

/-- Claim C7 witness: concrete append-only and uniqueness-preserving append,
with the two duplicate-freeness hypotheses discharged at the concrete store
and batch. -/
theorem save_preserves_uniqueness_witness :
    (∃ t, (save_watches_to_json [⟨"b", "B", "", "", []⟩]
        [⟨"a", "A", "", "", []⟩]).1 = [⟨"a", "A", "", "", []⟩] ++ t)
    ∧ (∀ v, countUrl (save_watches_to_json [⟨"b", "B", "", "", []⟩]
      [⟨"a", "A", "", "", []⟩]).1 v ≤ 1) :=
  ⟨(save_preserves_uniqueness [⟨"a", "A", "", "", []⟩]
      [⟨"b", "B", "", "", []⟩]).1,
   (save_preserves_uniqueness [⟨"a", "A", "", "", []⟩]
      [⟨"b", "B", "", "", []⟩]).2
    (fun v => by
      by_cases h : "a" = v
      · subst h; decide
      · have hb : (("a" : String) == v) = false := by simpa using h
        simp [countUrl, hb])
    (fun v => by
      by_cases h : "b" = v
      · subst h; decide
      · have hb : (("b" : String) == v) = false := by simpa using h
        simp [countUrl, hb])⟩

/-! ### Rate Controller theorem (Claim C5) -/

/-- Claim C5.  With `base = min(response_time * 1.5, 3.0)`, the branches are
checked in source order: `status >= 429` gives `base*5 + jitter`, landing in
`[base*5+10, base*5+15]` for jitter in `[10,15]`; only otherwise is
`status >= 500` consulted (giving `base*3 + jitter`); otherwise the delay is
`base + jitter`, landing in `[base, base*1.5]` for jitter in `[0, base*0.5]`. -/
theorem adaptive_delay_spec (response_time : ℚ) (status_code : Int) (jitter : ℚ)
    (_ht : 0 ≤ response_time) :
    (429 ≤ status_code →
      adaptive_delay response_time status_code jitter
        = min (response_time * (3 / 2)) 3 * 5 + jitter
      ∧ (10 ≤ jitter → jitter ≤ 15 →
          min (response_time * (3 / 2)) 3 * 5 + 10
            ≤ adaptive_delay response_time status_code jitter
          ∧ adaptive_delay response_time status_code jitter
            ≤ min (response_time * (3 / 2)) 3 * 5 + 15))
    ∧ (¬429 ≤ status_code → 500 ≤ status_code →
        adaptive_delay response_time status_code jitter
          = min (response_time * (3 / 2)) 3 * 3 + jitter)
    ∧ (¬429 ≤ status_code →
        adaptive_delay response_time status_code jitter
          = min (response_time * (3 / 2)) 3 + jitter
        ∧ (0 ≤ jitter → jitter ≤ min (response_time * (3 / 2)) 3 * (1 / 2) →
            min (response_time * (3 / 2)) 3
              ≤ adaptive_delay response_time status_code jitter
            ∧ adaptive_delay response_time status_code jitter
              ≤ min (response_time * (3 / 2)) 3 * (3 / 2))) := by
  refine ⟨?_, ?_, ?_⟩
  · intro h429
    have heq : adaptive_delay response_time status_code jitter
        = min (response_time * (3 / 2)) 3 * 5 + jitter := by
      unfold adaptive_delay
      rw [if_pos h429]
    refine ⟨heq, ?_⟩
    intro h10 h15
    rw [heq]
    constructor <;> linarith
  · intro h429 h500
    omega
  · intro h429
    have h500 : ¬500 ≤ status_code := by omega
    have heq : adaptive_delay response_time status_code jitter
        = min (response_time * (3 / 2)) 3 + jitter := by
      unfold adaptive_delay
      rw [if_neg h429, if_neg h500]
    refine ⟨heq, ?_⟩
    intro h0 hhalf
    rw [heq]
    constructor <;> linarith

/-- Claim C5 witness: concrete evaluations of both live branches. -/
theorem adaptive_delay_spec_witness :
    adaptive_delay 2 503 12 = min ((2 : ℚ) * (3 / 2)) 3 * 5 + 12
    ∧ adaptive_delay 2 200 1 = min ((2 : ℚ) * (3 / 2)) 3 + 1 :=
  ⟨((adaptive_delay_spec 2 503 12 (by norm_num)).1 (by norm_num)).1,
   ((adaptive_delay_spec 2 200 1 (by norm_num)).2.2 (by norm_num)).1⟩

/-! ### Progress Store theorem (Claim C6) -/

/-- Claim C6.  `load_progress` is total (never raises) and returns the default
cursor `{current_page: 1, processed_urls: []}` both for an absent progress
file and for a malformed (unparseable) one. -/
theorem load_progress_total_default :
    load_progress .absent = ⟨1, []⟩
    ∧ load_progress .malformed = ⟨1, []⟩
    ∧ ∀ f : ProgressFile, ∃ c : Progress, load_progress f = c :=
  ⟨rfl, rfl, fun f => ⟨load_progress f, rfl⟩⟩

theorem lookup_map_replace (k v : String) :
    ∀ specs : List (String × String), specs.any (fun p => p.1 == k) = true →
      (specs.map (fun p => if p.1 == k then (k, v) else p)).lookup k = some v := by
  intro specs
  induction specs with
  | nil => intro h; simp at h
  | cons p ps ih =>
    intro h
    obtain ⟨k1, v1⟩ := p
    by_cases hp : k1 = k
    · subst hp
      simp [List.lookup_cons]
    · have hb : (k1 == k) = false := by simpa using hp
      have hk : (k == k1) = false := by simpa using fun hh2 => hp hh2.symm
      have hh : ps.any (fun p => p.1 == k) = true := by
        rw [List.any_cons] at h
        simp only at h
        rw [hb] at h
        simpa using h
      simp only [List.map_cons]
      simp only [hb]
      simpa [hk, List.lookup_cons] using ih hh

theorem lookup_append_single (k v : String) :
    ∀ specs : List (String × String), specs.any (fun p => p.1 == k) = false →
      (specs ++ [(k, v)]).lookup k = some v := by
  intro specs
  induction specs with
  | nil => simp [List.lookup_cons]
  | cons p ps ih =>
    intro h
    obtain ⟨k1, v1⟩ := p
    rw [List.any_cons] at h
    simp only at h
    have hb : (k1 == k) = false := by
      cases hpb : (k1 == k)
      · rfl
      · rw [hpb] at h
        simp at h
    have hps : ps.any (fun p => p.1 == k) = false := by
      rw [hb] at h
      simpa using h
    have hk : (k == k1) = false := by
      rw [beq_eq_false_iff_ne] at hb ⊢
      exact fun hh => hb hh.symm
    rw [List.cons_append, List.lookup_cons]
    simp [hk]
    exact ih hps

/-- Python dict semantics: after `specs[k] = v` the value stored at `k` is
`v` (later duplicate keys overwrite earlier ones). -/
theorem dictInsert_lookup (specs : List (String × String)) (k v : String) :
    (dictInsert specs k v).lookup k = some v := by
  unfold dictInsert
  by_cases h : specs.any (fun p => p.1 == k) = true
  · rw [if_pos h]
    exact lookup_map_replace k v specs h
  · have hf : specs.any (fun p => p.1 == k) = false := by
      cases hb : specs.any (fun p => p.1 == k)
      · rfl
      · exact absurd hb h
    rw [if_neg (by rw [hf]; decide)]
    exact lookup_append_single k v specs hf

/-- Claim C4.  Row filtering of the specification table: a row whose key
lowercases to `"basic info"` is always skipped; a row whose key lowercases to
`"description"` is skipped exactly when its processed value also lowercases to
`"description"` (so `{key: "Description", value: "A fine chronometer"}` is
retained, case-preserved); a row whose key strips to empty is skipped; and a
retained row stores its (later-overwrites-earlier) value under the
case-preserved stripped key. -/
theorem extract_specs_row_filtering :
    (∀ k v, strToLower (strTrim k) = "basic info" → specRowSkipped ⟨k, v⟩ = true)
    ∧ (∀ k v, strToLower (strTrim k) = "description" →
        (specRowSkipped ⟨k, v⟩ = true ↔
          strToLower (strTrim (docReadySub (strTrim v))) = "description"))
    ∧ (∀ k v, strTrim k = "" → specRowSkipped ⟨k, v⟩ = true)
    ∧ extract_specs [⟨"Basic Info", "some value"⟩] = []
    ∧ extract_specs [⟨"Description", "Description"⟩] = []
    ∧ extract_specs [⟨"Description", "A fine chronometer"⟩]
        = [("Description", "A fine chronometer")]
    ∧ (∀ specs k v, specRowSkipped ⟨k, v⟩ = false →
        processSpecRow specs ⟨k, v⟩
          = dictInsert specs (strTrim k) (docReadySub (strTrim v))
        ∧ (processSpecRow specs ⟨k, v⟩).lookup (strTrim k)
            = some (docReadySub (strTrim v))) := by
  refine ⟨?_, ?_, ?_, by decide, by decide, by decide, ?_⟩
  · intro k v h
    simp [specRowSkipped, h]
  · intro k v h
    have hne : strTrim k ≠ "" := by
      intro hh
      rw [hh] at h
      exact absurd h (by decide)
    have hb : (strTrim k == "") = false := beq_eq_false_iff_ne.mpr hne
    simp [specRowSkipped, h, hb]
  · intro k v h
    simp [specRowSkipped, h]
  · intro specs k v h
    have heq : processSpecRow specs ⟨k, v⟩
        = dictInsert specs (strTrim k) (docReadySub (strTrim v)) := by
      unfold processSpecRow
      rw [h]
      simp
    exact ⟨heq, heq ▸ dictInsert_lookup specs (strTrim k) (docReadySub (strTrim v))⟩

/-- Claim C4 witness: concrete skipped rows through the general parts. -/
theorem extract_specs_row_filtering_witness :
    specRowSkipped ⟨"Basic Info", "x"⟩ = true
    ∧ specRowSkipped ⟨"  ", "y"⟩ = true
    ∧ (specRowSkipped ⟨"DESCRIPTION", "Description"⟩ = true ↔
        strToLower (strTrim (docReadySub (strTrim "Description"))) = "description") :=
  ⟨extract_specs_row_filtering.1 "Basic Info" "x" (by decide),
   extract_specs_row_filtering.2.2.1 "  " "y" (by decide),
   extract_specs_row_filtering.2.1 "DESCRIPTION" "Description" (by decide)⟩

theorem addListingReq_processed (st : CrawlState) (p : Nat) :
    (addListingReq st p).processed = st.processed := rfl

theorem addListingReq_detailRequests (st : CrawlState) (p : Nat) :
    (addListingReq st p).detailRequests = st.detailRequests := rfl

theorem addListingReq_listingRequests (st : CrawlState) (p : Nat) :
    (addListingReq st p).listingRequests = st.listingRequests ++ [p] := rfl

theorem addProgressSave_processed (st : CrawlState) (pr : Progress) :
    (addProgressSave st pr).processed = st.processed := rfl

theorem addProgressSave_detailRequests (st : CrawlState) (pr : Progress) :
    (addProgressSave st pr).detailRequests = st.detailRequests := rfl

theorem addProgressSave_listingRequests (st : CrawlState) (pr : Progress) :
    (addProgressSave st pr).listingRequests = st.listingRequests := rfl

/-! ### Orchestrator trace lemmas -/

theorem mem_range'_ge {m s n : Nat} (h : m ∈ List.range' s n) : s ≤ m ∧ m < s + n := by
  obtain ⟨i, hi, rfl⟩ := List.mem_range'.mp h
  omega

theorem range'_nodup : ∀ (n s : Nat), (List.range' s n).Nodup
  | 0, s => by simp
  | n + 1, s => by
    rw [List.range'_succ]
    refine List.nodup_cons.mpr ⟨?_, range'_nodup n (s + 1)⟩
    intro hmem
    have := mem_range'_ge hmem
    omega

theorem itemLoop_detailRequests (env : BrandEnv) (page_num : Nat) :
    ∀ (urls : List String) (st : CrawlState),
      (itemLoop env page_num urls st).detailRequests = st.detailRequests ++ urls := by
  intro urls
  induction urls with
  | nil => intro st; simp [itemLoop]
  | cons url rest ih =>
    intro st
    cases hd : env.detail url with
    | none =>
      simp only [itemLoop, hd]
      rw [ih]
      simp
    | some w =>
      simp only [itemLoop, hd]
      rw [ih]
      simp

theorem itemLoop_listingRequests (env : BrandEnv) (page_num : Nat) :
    ∀ (urls : List String) (st : CrawlState),
      (itemLoop env page_num urls st).listingRequests = st.listingRequests := by
  intro urls
  induction urls with
  | nil => intro st; simp [itemLoop]
  | cons url rest ih =>
    intro st
    cases hd : env.detail url with
    | none => simp only [itemLoop, hd]; rw [ih]
    | some w => simp only [itemLoop, hd]; rw [ih]

theorem itemLoop_brand_watches (env : BrandEnv) (page_num : Nat) :
    ∀ (urls : List String) (st : CrawlState),
      (itemLoop env page_num urls st).brand_watches
        = st.brand_watches ++ urls.filterMap env.detail := by
  intro urls
  induction urls with
  | nil => intro st; simp [itemLoop]
  | cons url rest ih =>
    intro st
    cases hd : env.detail url with
    | none =>
      simp only [itemLoop, hd]
      rw [ih, List.filterMap_cons, hd]
    | some w =>
      simp only [itemLoop, hd]
      rw [ih, List.filterMap_cons, hd]
      simp

theorem itemLoop_processed_mono (env : BrandEnv) (page_num : Nat) :
    ∀ (urls : List String) (st : CrawlState) (u : String),
      u ∈ st.processed → u ∈ (itemLoop env page_num urls st).processed := by
  intro urls
  induction urls with
  | nil => intro st u hu; simpa [itemLoop] using hu
  | cons url rest ih =>
    intro st u hu
    cases hd : env.detail url with
    | none =>
      simp only [itemLoop, hd]
      exact ih _ u hu
    | some w =>
      simp only [itemLoop, hd]
      refine ih _ u ?_
      simp only [setAdd]
      by_cases hc : st.processed.contains url
      · rw [if_pos hc]
        exact hu
      · have hcf : st.processed.contains url = false := by
          cases hcb : st.processed.contains url
          · rfl
          · exact absurd hcb hc
        simp only [hcf]
        simp only [Bool.false_eq_true, if_false]
        exact List.mem_append_left _ hu

theorem itemLoop_processed_subset (env : BrandEnv) (page_num : Nat) :
    ∀ (urls : List String) (st : CrawlState) (u : String),
      u ∈ (itemLoop env page_num urls st).processed →
        u ∈ st.processed ∨ u ∈ urls := by
  intro urls
  induction urls with
  | nil => intro st u hu; left; simpa [itemLoop] using hu
  | cons url rest ih =>
    intro st u hu
    cases hd : env.detail url with
    | none =>
      simp only [itemLoop, hd] at hu
      rcases ih _ u hu with h | h
      · left; exact h
      · right; exact List.mem_cons_of_mem _ h
    | some w =>
      simp only [itemLoop, hd] at hu
      rcases ih _ u hu with h | h
      · simp only [setAdd] at h
        by_cases hc : st.processed.contains url
        · rw [if_pos hc] at h
          left; exact h
        · have hcf : st.processed.contains url = false := by
            cases hcb : st.processed.contains url
            · rfl
            · exact absurd hcb hc
          rw [hcf] at h
          simp only [Bool.false_eq_true, if_false] at h
          rcases List.mem_append.mp h with h2 | h2
          · left; exact h2
          · right
            simp only [List.mem_singleton] at h2
            exact h2 ▸ List.mem_cons_self _ _
      · right; exact List.mem_cons_of_mem _ h

theorem itemLoop_processed_not_added (env : BrandEnv) (page_num : Nat) :
    ∀ (urls : List String) (st : CrawlState) (u : String),
      env.detail u = none → u ∉ st.processed →
        u ∉ (itemLoop env page_num urls st).processed := by
  intro urls
  induction urls with
  | nil => intro st u _ hu; simpa [itemLoop] using hu
  | cons url rest ih =>
    intro st u hdu hu
    cases hd : env.detail url with
    | none =>
      simp only [itemLoop, hd]
      exact ih _ u hdu hu
    | some w =>
      simp only [itemLoop, hd]
      refine ih _ u hdu ?_
      simp only [setAdd]
      have hne : url ≠ u := by
        intro hh
        rw [hh, hdu] at hd
        cases hd
      by_cases hc : st.processed.contains url
      · rw [if_pos hc]
        exact hu
      · have hcf : st.processed.contains url = false := by
          cases hcb : st.processed.contains url
          · rfl
          · exact absurd hcb hc
        simp only [hcf]
        simp only [Bool.false_eq_true, if_false]
        intro hmem
        rcases List.mem_append.mp hmem with h2 | h2
        · exact hu h2
        · simp only [List.mem_singleton] at h2
          exact hne h2.symm

theorem with_retry_first_some {α : Type} (f : Nat → Option α) (a : α) (n : Nat)
    (h : f 0 = some a) : with_retry (n + 1) f = (1, some a) := by
  simp [with_retry, retryCall, h]

theorem with_retry_all_none {α : Type} (f : Nat → Option α)
    (h : ∀ i, f i = none) : with_retry 3 f = (3, none) := by
  simp [with_retry, retryCall, h 0, h 1, h 2]

theorem pageLoop_listing (env : BrandEnv) :
    ∀ (pages : List Nat) (st : CrawlState),
      ∃ d, (pageLoop env pages st).listingRequests = st.listingRequests ++ d
        ∧ (∀ p ∈ d, p ∈ pages)
        ∧ (∀ p rest, pages = p :: rest → ∃ d2, d = p :: d2) := by
  intro pages
  induction pages with
  | nil =>
    intro st
    refine ⟨[], by simp [pageLoop], by simp, ?_⟩
    intro p rest hh
    cases hh
  | cons p rest ih =>
    intro st
    have hone : ∀ q ∈ [p], q ∈ p :: rest := by
      intro q hq
      simp only [List.mem_singleton] at hq
      simp [hq]
    have hhead : ∀ p2 rest2, p :: rest = p2 :: rest2 → ∃ d2, [p] = p2 :: d2 := by
      intro p2 rest2 hh
      cases hh
      exact ⟨[], rfl⟩
    simp only [pageLoop]
    cases hpb : (process_brand_page env p).2 with
    | none => exact ⟨[p], rfl, hone, hhead⟩
    | some b =>
      cases b with
      | false => exact ⟨[p], rfl, hone, hhead⟩
      | true =>
        by_cases hw : (env.listing p).isEmpty = true
        · rw [if_pos hw]
          exact ⟨[p], rfl, hone, hhead⟩
        · rw [if_neg hw]
          by_cases hn : ((env.listing p).filter
              (fun u => !(st.processed.contains u))).isEmpty = true
          · rw [if_pos hn]
            exact ⟨[p], rfl, hone, hhead⟩
          · rw [if_neg hn]
            obtain ⟨d, hd, hmem, -⟩ := ih
              (addProgressSave (itemLoop env p ((env.listing p).filter
                  (fun u => !(st.processed.contains u))) (addListingReq st p))
                ⟨p + 1, (itemLoop env p ((env.listing p).filter
                  (fun u => !(st.processed.contains u))) (addListingReq st p)).processed⟩)
            refine ⟨p :: d, ?_, ?_, ?_⟩
            · rw [hd, addProgressSave_listingRequests, itemLoop_listingRequests,
                addListingReq_listingRequests]
              simp
            · intro q hq
              rcases List.mem_cons.mp hq with h | h
              · simp [h]
              · exact List.mem_cons_of_mem _ (hmem q h)
            · intro p2 rest2 hh
              cases hh
              exact ⟨d, rfl⟩

theorem pageLoop_avoid (env : BrandEnv) :
    ∀ (pages : List Nat) (st : CrawlState) (u : String),
      u ∈ st.processed → u ∉ st.detailRequests →
        u ∈ (pageLoop env pages st).processed
          ∧ u ∉ (pageLoop env pages st).detailRequests := by
  intro pages
  induction pages with
  | nil =>
    intro st u h1 h2
    exact ⟨h1, h2⟩
  | cons p rest ih =>
    intro st u h1 h2
    simp only [pageLoop]
    cases hpb : (process_brand_page env p).2 with
    | none => exact ⟨h1, h2⟩
    | some b =>
      cases b with
      | false => exact ⟨h1, h2⟩
      | true =>
        by_cases hw : (env.listing p).isEmpty = true
        · rw [if_pos hw]
          exact ⟨h1, h2⟩
        · rw [if_neg hw]
          by_cases hn : ((env.listing p).filter
              (fun u => !(st.processed.contains u))).isEmpty = true
          · rw [if_pos hn]
            exact ⟨h1, h2⟩
          · rw [if_neg hn]
            have hunew : u ∉ (env.listing p).filter
                (fun v => !(st.processed.contains v)) := by
              intro hmem
              have hpred := List.of_mem_filter hmem
              rw [(contains_true_iff _ _).mpr h1] at hpred
              exact absurd hpred (by decide)
            have h1' : u ∈ (itemLoop env p ((env.listing p).filter
                (fun v => !(st.processed.contains v))) (addListingReq st p)).processed :=
              itemLoop_processed_mono env p _ _ u h1
            have h2' : u ∉ (itemLoop env p ((env.listing p).filter
                (fun v => !(st.processed.contains v))) (addListingReq st p)).detailRequests := by
              rw [itemLoop_detailRequests, addListingReq_detailRequests]
              intro hmem
              rcases List.mem_append.mp hmem with h | h
              · exact h2 h
              · exact hunew h
            exact ih _ u h1' h2'

/-- Fully-successful pagination: if every page-load attempt succeeds and
every page's listing exposes a URL listed on no other page, the page loop
runs through all its pages. -/
theorem pageLoop_all_success (env : BrandEnv)
    (H1 : ∀ p i, env.pageAttempt p i = some true)
    (Hfresh : ∀ p, ∃ u, u ∈ env.listing p ∧ ∀ q, q ≠ p → u ∉ env.listing q) :
    ∀ (pages : List Nat) (st : CrawlState), pages.Nodup →
      (∀ u ∈ st.processed, ∃ q, q ∉ pages ∧ u ∈ env.listing q) →
      (pageLoop env pages st).listingRequests = st.listingRequests ++ pages := by
  intro pages
  induction pages with
  | nil => intro st _ _; simp [pageLoop]
  | cons p rest ih =>
    intro st hnd hinv
    have hp2 : (process_brand_page env p).2 = some true := by
      unfold process_brand_page
      rw [show (3 : Nat) = 2 + 1 from rfl]
      rw [with_retry_first_some (env.pageAttempt p) true 2 (H1 p 0)]
    obtain ⟨u0, hu0mem, hu0fresh⟩ := Hfresh p
    have hlist : env.listing p ≠ [] := by
      intro hh
      rw [hh] at hu0mem
      cases hu0mem
    have hwfalse : (env.listing p).isEmpty = false := List.isEmpty_eq_false.mpr hlist
    have hu0new : u0 ∈ (env.listing p).filter (fun v => !(st.processed.contains v)) := by
      refine List.mem_filter.mpr ⟨hu0mem, ?_⟩
      have hnp : u0 ∉ st.processed := by
        intro hmem
        obtain ⟨q, hq, hql⟩ := hinv u0 hmem
        have hqne : q ≠ p := fun hh => hq (hh ▸ List.mem_cons_self _ _)
        exact hu0fresh q hqne hql
      have hc : st.processed.contains u0 = false := by
        cases hcb : st.processed.contains u0
        · rfl
        · exact absurd ((contains_true_iff _ _).mp hcb) hnp
      rw [hc]
      decide
    have hnfalse : ((env.listing p).filter
        (fun v => !(st.processed.contains v))).isEmpty = false :=
      List.isEmpty_eq_false.mpr (fun hh => by rw [hh] at hu0new; cases hu0new)
    have hinv2 : ∀ u ∈ (addProgressSave (itemLoop env p ((env.listing p).filter
        (fun v => !(st.processed.contains v))) (addListingReq st p))
        ⟨p + 1, (itemLoop env p ((env.listing p).filter
          (fun v => !(st.processed.contains v))) (addListingReq st p)).processed⟩).processed,
        ∃ q, q ∉ rest ∧ u ∈ env.listing q := by
      intro u hu
      rw [addProgressSave_processed] at hu
      rcases itemLoop_processed_subset env p _ _ u hu with h | h
      · obtain ⟨q, hq, hql⟩ := hinv u h
        exact ⟨q, fun hr => hq (List.mem_cons_of_mem _ hr), hql⟩
      · exact ⟨p, (List.nodup_cons.mp hnd).1, List.mem_of_mem_filter h⟩
    have hih := ih
      (addProgressSave (itemLoop env p ((env.listing p).filter
          (fun v => !(st.processed.contains v))) (addListingReq st p))
        ⟨p + 1, (itemLoop env p ((env.listing p).filter
          (fun v => !(st.processed.contains v))) (addListingReq st p)).processed⟩)
      (List.nodup_cons.mp hnd).2 (by
        intro u hu
        obtain ⟨q, hq, hql⟩ := hinv2 u hu
        exact ⟨q, hq, hql⟩)
    simp only [pageLoop]
    rw [hp2]
    rw [if_neg (show ¬((env.listing p).isEmpty = true) by rw [hwfalse]; decide)]
    rw [if_neg (show ¬(((env.listing p).filter
      (fun v => !(st.processed.contains v))).isEmpty = true) by rw [hnfalse]; decide)]
    rw [hih, addProgressSave_listingRequests, itemLoop_listingRequests,
      addListingReq_listingRequests]
    simp

/-- Claim C3.  Resuming a brand from a Progress Cursor with `current_page = 3`
and non-empty `processed_urls`, the orchestrator requests listing pages
starting at page 3 (pages 1 and 2 are never requested) and never requests the
detail page of any URL in `processed_urls`, whatever the page-load, listing
and detail oracles return. -/
theorem process_brand_resume (env : BrandEnv) (S : List String) (_hS : S ≠ []) :
    ((process_brand env ⟨3, S⟩).listingRequests.head? = some 3)
    ∧ (∀ p ∈ (process_brand env ⟨3, S⟩).listingRequests, 3 ≤ p)
    ∧ (∀ u ∈ S, u ∉ (process_brand env ⟨3, S⟩).detailRequests) := by
  have hrange : List.range' 3 (100 - 3) = 3 :: List.range' 4 96 := by
    rw [show (100 - 3 : Nat) = 96 + 1 from rfl]
    exact List.range'_succ 3 96 1
  have hmain : process_brand env ⟨3, S⟩
      = pageLoop env (3 :: List.range' 4 96) ⟨[], S, [], [], [], []⟩ := by
    show pageLoop env (List.range' 3 (100 - 3)) ⟨[], S, [], [], [], []⟩ = _
    rw [hrange]
  rw [hmain]
  obtain ⟨d, hd, hmem, hcons⟩ :=
    pageLoop_listing env (3 :: List.range' 4 96) ⟨[], S, [], [], [], []⟩
  obtain ⟨d2, rfl⟩ := hcons 3 (List.range' 4 96) rfl
  refine ⟨?_, ?_, ?_⟩
  · rw [hd]
    simp
  · intro p hp
    rw [hd] at hp
    simp only [List.nil_append] at hp
    have h2 := hmem p hp
    rcases List.mem_cons.mp h2 with h | h
    · omega
    · have h3 := mem_range'_ge h
      omega
  · intro u hu
    exact (pageLoop_avoid env (3 :: List.range' 4 96) ⟨[], S, [], [], [], []⟩ u hu
      (List.not_mem_nil u)).2

/-- Claim C3 witness: a concrete resumed run. -/
theorem process_brand_resume_witness :
    ((process_brand envResume ⟨3, ["seen"]⟩).listingRequests.head? = some 3)
    ∧ "seen" ∉ (process_brand envResume ⟨3, ["seen"]⟩).detailRequests :=
  ⟨(process_brand_resume envResume ["seen"] (by decide)).1,
   (process_brand_resume envResume ["seen"] (by decide)).2.2 "seen" (by decide)⟩

/-- Claim C8 (amended).  The page loop is `for page_num in range(start_page,
100)`, so no listing page numbered 100 or above is ever requested; in a fully
successful crawl from page 1 (every attempt loads, every page exposes a URL
listed on no other page) the orchestrator attempts exactly the 99 pages 1
through 99 — not 100 pages. -/
theorem process_brand_page_ceiling :
    (∀ (env : BrandEnv) (progress : Progress),
      ∀ p ∈ (process_brand env progress).listingRequests, p < 100)
    ∧ (∀ env : BrandEnv, (∀ p i, env.pageAttempt p i = some true) →
        (∀ p, ∃ u, u ∈ env.listing p ∧ ∀ q, q ≠ p → u ∉ env.listing q) →
        (process_brand env ⟨1, []⟩).listingRequests = List.range' 1 99) := by
  constructor
  · intro env progress p hp
    have hmain : process_brand env progress = pageLoop env
        (List.range' progress.current_page (100 - progress.current_page))
        ⟨[], progress.processed_urls, [], [], [], []⟩ := rfl
    rw [hmain] at hp
    obtain ⟨d, hd, hmem, -⟩ := pageLoop_listing env
      (List.range' progress.current_page (100 - progress.current_page))
      ⟨[], progress.processed_urls, [], [], [], []⟩
    rw [hd] at hp
    simp only [List.nil_append] at hp
    have h2 := hmem p hp
    have h3 := mem_range'_ge h2
    omega
  · intro env H1 Hfresh
    have hmain : process_brand env ⟨1, []⟩ = pageLoop env (List.range' 1 99)
        ⟨[], [], [], [], [], []⟩ := rfl
    rw [hmain]
    rw [pageLoop_all_success env H1 Hfresh (List.range' 1 99)
      ⟨[], [], [], [], [], []⟩ (range'_nodup 99 1)
      (fun u hu => absurd hu (List.not_mem_nil u))]
    simp

set_option maxRecDepth 100000 in
/-- Claim C8 counterexample.  In a crawl from page 1 where every page loads
successfully and always exposes a yet-unprocessed URL, the attempted listing
pages are exactly 1..99: page 100 is never requested and the attempted pages
are not 1..100, because `range(start_page, 100)` excludes 100. -/
theorem process_brand_page_ceiling_cex :
    (process_brand envCeiling ⟨1, []⟩).listingRequests = List.range' 1 99
    ∧ (100 : Nat) ∉ (process_brand envCeiling ⟨1, []⟩).listingRequests
    ∧ (process_brand envCeiling ⟨1, []⟩).listingRequests ≠ List.range' 1 100 := by
  decide

/-- Claim C8 witness: the fully-successful-crawl part applied to a concrete
environment whose page `p` lists a URL unique to page `p`. -/
theorem process_brand_page_ceiling_witness :
    (process_brand envFresh ⟨1, []⟩).listingRequests = List.range' 1 99 :=
  process_brand_page_ceiling.2 envFresh (fun _ _ => rfl) (fun p =>
    ⟨String.mk (List.replicate p 'a'), List.mem_singleton.mpr rfl,
     fun q hq hmem => by
       have h := List.mem_singleton.mp hmem
       have hdata : List.replicate p 'a' = List.replicate q 'a' :=
         congrArg String.data h
       have hlen := congrArg List.length hdata
       simp at hlen
       exact hq hlen.symm⟩)

/-- Claim C9 (amended).  In the orchestrator's item loop, each new URL is
passed to `process_watch_detail` exactly once per page visit — there is no
retry wrapper on item extraction; a failing item contributes no record and is
not marked processed, and the loop continues with the remaining URLs.  The
3-attempt exponential-backoff retry applies to the listing-page loads
(`process_brand_page` is decorated with `with_retry`): when all its attempts
raise, exactly 3 attempts are made before the error propagates. -/
theorem item_extraction_single_attempt (env : BrandEnv) (page_num : Nat) :
    (∀ urls st, (itemLoop env page_num urls st).detailRequests
        = st.detailRequests ++ urls)
    ∧ (∀ urls st, (itemLoop env page_num urls st).brand_watches
        = st.brand_watches ++ urls.filterMap env.detail)
    ∧ (∀ urls st u, env.detail u = none → u ∉ st.processed →
        u ∉ (itemLoop env page_num urls st).processed)
    ∧ (∀ p, (∀ i, env.pageAttempt p i = none) →
        process_brand_page env p = (3, none)) :=
  ⟨itemLoop_detailRequests env page_num,
   itemLoop_brand_watches env page_num,
   fun urls st u h1 h2 => itemLoop_processed_not_added env page_num urls st u h1 h2,
   fun p h => with_retry_all_none (env.pageAttempt p) h⟩

/-- Claim C9 counterexample.  With page 1 listing a single item whose
extraction always fails (raises/returns None) and page 2 listing nothing, the
run requests the item's detail page exactly once — not 3 retried attempts —
and abandons it (no record stored), without aborting the brand. -/
theorem item_extraction_single_attempt_cex :
    (process_brand envItem ⟨1, []⟩).detailRequests = ["u"]
    ∧ (process_brand envItem ⟨1, []⟩).brand_watches = []
    ∧ (process_brand envItem ⟨1, []⟩).detailRequests.count "u" = 1
    ∧ ¬((process_brand envItem ⟨1, []⟩).detailRequests.count "u" = 3) := by
  decide

/-- Claim C9 witness: concrete single-attempt item loop and 3-attempt page
retry. -/
theorem item_extraction_single_attempt_witness :
    (itemLoop envNoRetry 1 ["a", "b"] ⟨[], [], [], [], [], []⟩).detailRequests
        = [] ++ ["a", "b"]
    ∧ "x" ∉ (itemLoop envNoRetry 1 ["x"] ⟨[], [], [], [], [], []⟩).processed
    ∧ process_brand_page envNoRetry 5 = (3, none) :=
  ⟨(item_extraction_single_attempt envNoRetry 1).1 ["a", "b"] ⟨[], [], [], [], [], []⟩,
   (item_extraction_single_attempt envNoRetry 1).2.2.1 ["x"] ⟨[], [], [], [], [], []⟩
     "x" rfl (List.not_mem_nil "x"),
   (item_extraction_single_attempt envNoRetry 1).2.2.2 5 (fun _ => rfl)⟩

theorem splitAtFirstChar_not_mem {c : Char} :
    ∀ {l : List Char}, c ∉ l → splitAtFirstChar c l = (l, none) := by
  intro l
  induction l with
  | nil => intro _; rfl
  | cons a as ih =>
    intro h
    have hne : ¬(a = c) := fun hh => h (hh ▸ List.mem_cons_self a as)
    have hnm : c ∉ as := fun hh => h (List.mem_cons_of_mem a hh)
    simp only [splitAtFirstChar, if_neg hne, ih hnm]

theorem splitAtFirstChar_append {c : Char} :
    ∀ {a : List Char} (b : List Char), c ∉ a →
      splitAtFirstChar c (a ++ c :: b) = (a, some b) := by
  intro a
  induction a with
  | nil => intro b _; simp [splitAtFirstChar]
  | cons x xs ih =>
    intro b h
    have hne : ¬(x = c) := fun hh => h (hh ▸ List.mem_cons_self x xs)
    have hnm : c ∉ xs := fun hh => h (List.mem_cons_of_mem x hh)
    simp only [List.cons_append, splitAtFirstChar, if_neg hne, List.append_eq]
    rw [ih b hnm]

theorem takeUntilAny_append {stops : List Char} :
    ∀ {a : List Char} (b : List Char), (∀ x ∈ a, x ∉ stops) →
      (b = [] ∨ ∃ x xs, b = x :: xs ∧ x ∈ stops) →
      takeUntilAny stops (a ++ b) = (a, b) := by
  intro a
  induction a with
  | nil =>
    intro b _ hb
    rcases hb with rfl | ⟨x, xs, rfl, hx⟩
    · rfl
    · simp only [List.nil_append, takeUntilAny, if_pos hx]
  | cons y ys ih =>
    intro b h hb
    have hy : y ∉ stops := h y (List.mem_cons_self y ys)
    have hys : ∀ x ∈ ys, x ∉ stops := fun x hx => h x (List.mem_cons_of_mem y hx)
    simp only [List.cons_append, takeUntilAny, if_neg hy, List.append_eq]
    rw [ih b hys hb]

theorem mapToLower_self : ∀ {l : List Char}, (∀ c ∈ l, Char.toLower c = c) →
    l.map Char.toLower = l := by
  intro l
  induction l with
  | nil => intro _; rfl
  | cons a as ih =>
    intro h
    rw [List.map_cons, h a (List.mem_cons_self a as),
      ih (fun c hc => h c (List.mem_cons_of_mem a hc))]

theorem mkUrl_data (s nl p q : String) :
    (mkUrl s nl p q).data
      = s.data ++ ':' :: '/' :: '/' :: (nl.data ++ (p.data ++ queryPartChars q)) := by
  have hsep : ("://" : String).data = [':', '/', '/'] := rfl
  unfold mkUrl queryPartChars
  by_cases h : q = ""
  · rw [if_pos h, if_pos h]
    simp [hsep, List.append_assoc]
  · rw [if_neg h, if_neg h]
    have hqd : ("?" ++ q).data = '?' :: q.data := rfl
    simp [hsep, hqd, List.append_assoc]

theorem queryPartChars_empty {q : String} (h : q = "") : queryPartChars q = [] := by
  unfold queryPartChars
  rw [if_pos h]

theorem queryPartChars_cons {q : String} (h : ¬q = "") :
    queryPartChars q = '?' :: q.data := by
  unfold queryPartChars
  rw [if_neg h]

theorem mem_queryPartChars {q : String} {a : Char} (ha : a ∈ queryPartChars q) :
    a = '?' ∨ a ∈ q.data := by
  unfold queryPartChars at ha
  by_cases h : q = ""
  · rw [if_pos h] at ha
    cases ha
  · rw [if_neg h] at ha
    rcases List.mem_cons.mp ha with h2 | h2
    · left; exact h2
    · right; exact h2

theorem urlsplit_mkUrl (s nl p q : String) (hs : schemeOK s) (hn : netlocOK nl)
    (hp : pathOK p) (hq : queryOK q) :
    urlsplitChars [] (mkUrl s nl p q).data
      = Except.ok ⟨s.data, nl.data, p.data, q.data, []⟩ := by
  obtain ⟨hsne, hsall⟩ := hs
  obtain ⟨hphead, hpall⟩ := hp
  obtain ⟨c0, cs, hc0⟩ := List.exists_cons_of_ne_nil hsne
  have hc0mem : c0 ∈ s.data := hc0 ▸ List.mem_cons_self c0 cs
  rw [mkUrl_data]
  have hclean : ((s.data ++ ':' :: '/' :: '/' ::
        (nl.data ++ (p.data ++ queryPartChars q))).dropWhile
        isC0OrSpace).filter (fun c => !(isUnsafeUrlChar c))
      = s.data ++ ':' :: '/' :: '/' :: (nl.data ++ (p.data ++ queryPartChars q)) := by
    have hdrop : (s.data ++ ':' :: '/' :: '/' ::
        (nl.data ++ (p.data ++ queryPartChars q))).dropWhile isC0OrSpace
        = s.data ++ ':' :: '/' :: '/' :: (nl.data ++ (p.data ++ queryPartChars q)) := by
      rw [hc0, List.cons_append, List.dropWhile_cons]
      have hf : isC0OrSpace c0 = false := by
        have h20 := (hsall c0 hc0mem).2.2.2.2.1
        unfold isC0OrSpace
        exact decide_eq_false (by omega)
      rw [hf]
      simp only [Bool.false_eq_true, if_false]
    rw [hdrop]
    apply List.filter_eq_self.mpr
    intro a ha
    have hau : isUnsafeUrlChar a = false := by
      rcases List.mem_append.mp ha with h | h
      · exact (hsall a h).2.2.2.2.2
      · rcases List.mem_cons.mp h with rfl | h
        · rfl
        · rcases List.mem_cons.mp h with rfl | h
          · rfl
          · rcases List.mem_cons.mp h with rfl | h
            · rfl
            · rcases List.mem_append.mp h with h | h
              · exact (hn a h).2.2.2.2.2
              · rcases List.mem_append.mp h with h | h
                · exact (hpall a h).2.2.2
                · rcases mem_queryPartChars h with rfl | h
                  · rfl
                  · exact (hq a h).2
    rw [hau]
    rfl
  have hsplit : splitScheme []
      (s.data ++ ':' :: '/' :: '/' :: (nl.data ++ (p.data ++ queryPartChars q)))
      = (s.data, '/' :: '/' :: (nl.data ++ (p.data ++ queryPartChars q))) := by
    have hnotmem : ':' ∉ s.data := fun hmem => (hsall _ hmem).2.2.2.1 rfl
    unfold splitScheme
    rw [splitAtFirstChar_append _ hnotmem]
    have hcond : s.data ≠ [] ∧ (s.data.headD ' ').isAlpha = true
        ∧ s.data.all (fun c => decide (c ∈ scheme_chars)) = true := by
      refine ⟨hsne, ?_, ?_⟩
      · rw [hc0]
        exact (hsall c0 hc0mem).1
      · rw [List.all_eq_true]
        intro x hx
        exact decide_eq_true (hsall x hx).2.1
    dsimp only
    rw [if_pos hcond]
    rw [mapToLower_self (fun c hc => (hsall c hc).2.2.1)]
  have htake : takeUntilAny ['/', '?', '#'] (nl.data ++ (p.data ++ queryPartChars q))
      = (nl.data, p.data ++ queryPartChars q) := by
    apply takeUntilAny_append
    · intro x hx hmem
      obtain ⟨h1, h2, h3, -⟩ := hn x hx
      rcases List.mem_cons.mp hmem with rfl | hmem
      · exact h1 rfl
      · rcases List.mem_cons.mp hmem with rfl | hmem
        · exact h2 rfl
        · rcases List.mem_cons.mp hmem with rfl | hmem
          · exact h3 rfl
          · cases hmem
    · rcases hphead with hpe | hph
      · rw [hpe, List.nil_append]
        by_cases hqe : q = ""
        · rw [queryPartChars_empty hqe]
          left
          rfl
        · rw [queryPartChars_cons hqe]
          right
          exact ⟨'?', q.data, rfl, by decide⟩
      · right
        obtain ⟨x, xs, hxx⟩ : ∃ x xs, p.data = x :: xs := by
          cases hpd : p.data with
          | nil => rw [hpd] at hph; cases hph
          | cons x xs => exact ⟨x, xs, rfl⟩
        have hx : x = '/' := by
          rw [hxx] at hph
          simpa using hph
        rw [hxx, List.cons_append]
        exact ⟨x, xs ++ queryPartChars q, rfl, by rw [hx]; decide⟩
  have hbr : ¬(('[' ∈ nl.data ∧ ']' ∉ nl.data) ∨ (']' ∈ nl.data ∧ '[' ∉ nl.data)) := by
    rintro (⟨hmem, -⟩ | ⟨hmem, -⟩)
    · exact (hn _ hmem).2.2.2.1 rfl
    · exact (hn _ hmem).2.2.2.2.1 rfl
  have hfin : finishSplit s.data nl.data (p.data ++ queryPartChars q)
      = ⟨s.data, nl.data, p.data, q.data, []⟩ := by
    have hnohash : '#' ∉ p.data ++ queryPartChars q := by
      intro hmem
      rcases List.mem_append.mp hmem with h | h
      · exact (hpall _ h).2.1 rfl
      · rcases mem_queryPartChars h with h2 | h2
        · exact absurd h2 (by decide)
        · exact (hq _ h2).1 rfl
    have hnoq : '?' ∉ p.data := fun hmem => (hpall _ hmem).1 rfl
    unfold finishSplit
    rw [splitAtFirstChar_not_mem hnohash]
    dsimp only
    by_cases hqe : q = ""
    · rw [queryPartChars_empty hqe, List.append_nil,
        splitAtFirstChar_not_mem hnoq, hqe]
      rfl
    · rw [queryPartChars_cons hqe, splitAtFirstChar_append q.data hnoq]
      rfl
  simp only [urlsplitChars]
  rw [hclean, hsplit]
  dsimp only
  rw [if_pos (show ('/' :: '/' :: (nl.data ++ (p.data ++ queryPartChars q))).take 2
      = ['/', '/'] from rfl)]
  rw [show ('/' :: '/' :: (nl.data ++ (p.data ++ queryPartChars q))).drop 2
      = nl.data ++ (p.data ++ queryPartChars q) from rfl]
  rw [htake]
  dsimp only
  rw [if_neg hbr, hfin]

theorem urlparse_mkUrl (s nl p q : String) (hs : schemeOK s) (hn : netlocOK nl)
    (hp : pathOK p) (hq : queryOK q) :
    urlparseChars [] (mkUrl s nl p q).data
      = Except.ok ⟨s.data, nl.data, p.data, [], q.data, []⟩ := by
  unfold urlparseChars
  rw [urlsplit_mkUrl s nl p q hs hn hp hq]
  show Except.bind _ _ = _
  dsimp only [Except.bind]
  rw [if_neg (fun hand => (hp.2 ';' hand.2).2.2.1 rfl)]
  rfl

/-- Claim C2.  Pagination URL construction for well-formed brand base URLs
`scheme://netloc path [?query]`: page 1 returns the base URL unchanged; for
`page_number > 1` a path ending in `index.htm` has that tail replaced by
`index-{n}.htm`, a path ending in `/` gets `index-{n}.htm` appended, and any
other path gets `/index-{n}.htm` appended, while scheme, host and query
string are preserved unchanged; including the spec's concrete examples. -/
theorem get_pagination_url_spec (s nl p q : String) (hs : schemeOK s)
    (hn : netlocOK nl) (hp : pathOK p) (hq : queryOK q) (n : Nat) :
    (get_pagination_url (mkUrl s nl p q) 1 = Except.ok (mkUrl s nl p q))
    ∧ (1 < n → ∀ p0 : String, p = p0 ++ "index.htm" →
        get_pagination_url (mkUrl s nl p q) n
          = Except.ok (mkUrl s nl (p0 ++ "index-" ++ toString n ++ ".htm") q))
    ∧ (1 < n → charsEndsWith p.data "index.htm".data = false →
        charsEndsWith p.data "/".data = true →
        get_pagination_url (mkUrl s nl p q) n
          = Except.ok (mkUrl s nl (p ++ "index-" ++ toString n ++ ".htm") q))
    ∧ (1 < n → charsEndsWith p.data "index.htm".data = false →
        charsEndsWith p.data "/".data = false →
        get_pagination_url (mkUrl s nl p q) n
          = Except.ok (mkUrl s nl (p ++ "/index-" ++ toString n ++ ".htm") q))
    ∧ get_pagination_url "https://x/brand/index.htm" 5
        = Except.ok "https://x/brand/index-5.htm"
    ∧ get_pagination_url "https://x/brand/" 2
        = Except.ok "https://x/brand/index-2.htm" := by
  have hparse := urlparse_mkUrl s nl p q hs hn hp hq
  refine ⟨?_, ?_, ?_, ?_, by rfl, by rfl⟩
  · unfold get_pagination_url
    rw [hparse]
    rfl
  · intro hn1 p0 hp0
    unfold get_pagination_url
    rw [hparse]
    show Except.bind _ _ = _
    dsimp only [Except.bind]
    rw [if_neg (by omega : ¬(n = 1))]
    have hend : charsEndsWith p.data "index.htm".data = true := by
      unfold charsEndsWith
      rw [hp0, String.data_append]
      simp [List.isSuffixOf_iff_suffix]
    rw [hend]
    simp only [if_true]
    have htk : p.data.take (p.data.length - 9) = p0.data := by
      rw [hp0, String.data_append, List.length_append,
        show ("index.htm".data).length = 9 from rfl, Nat.add_sub_cancel]
      exact List.take_left' rfl
    rw [htk]
    apply congrArg Except.ok
    apply String.ext
    rw [mkUrl_data]
    dsimp only
    by_cases hqe : q = ""
    · rw [if_neg (fun hh => hh (by simp [hqe])), queryPartChars_empty hqe]
      simp [String.data_append, List.append_assoc]
    · have hqd : q.data ≠ [] := fun hh => hqe (String.ext hh)
      rw [if_pos hqd, queryPartChars_cons hqe]
      simp [String.data_append, List.append_assoc]
  · intro hn1 hend1 hend2
    unfold get_pagination_url
    rw [hparse]
    show Except.bind _ _ = _
    dsimp only [Except.bind]
    rw [if_neg (by omega : ¬(n = 1))]
    rw [hend1]
    simp only [Bool.false_eq_true, if_false]
    rw [hend2]
    simp only [if_true]
    apply congrArg Except.ok
    apply String.ext
    rw [mkUrl_data]
    dsimp only
    by_cases hqe : q = ""
    · rw [if_neg (fun hh => hh (by simp [hqe])), queryPartChars_empty hqe]
      simp [String.data_append, List.append_assoc]
    · have hqd : q.data ≠ [] := fun hh => hqe (String.ext hh)
      rw [if_pos hqd, queryPartChars_cons hqe]
      simp [String.data_append, List.append_assoc]
  · intro hn1 hend1 hend2
    unfold get_pagination_url
    rw [hparse]
    show Except.bind _ _ = _
    dsimp only [Except.bind]
    rw [if_neg (by omega : ¬(n = 1))]
    rw [hend1]
    simp only [Bool.false_eq_true, if_false]
    rw [hend2]
    simp only [Bool.false_eq_true, if_false]
    apply congrArg Except.ok
    apply String.ext
    rw [mkUrl_data]
    dsimp only
    by_cases hqe : q = ""
    · rw [if_neg (fun hh => hh (by simp [hqe])), queryPartChars_empty hqe]
      simp [String.data_append, List.append_assoc]
    · have hqd : q.data ≠ [] := fun hh => hqe (String.ext hh)
      rw [if_pos hqd, queryPartChars_cons hqe]
      simp [String.data_append, List.append_assoc]

/-- Claim C2 witness: the general parts instantiated at a concrete
well-formed brand URL. -/
theorem get_pagination_url_spec_witness :
    get_pagination_url (mkUrl "https" "www.chrono24.com" "/rolex/index.htm" "") 1
      = Except.ok (mkUrl "https" "www.chrono24.com" "/rolex/index.htm" "")
    ∧ get_pagination_url (mkUrl "https" "www.chrono24.com" "/rolex/index.htm" "") 7
        = Except.ok (mkUrl "https" "www.chrono24.com"
            ("/rolex/" ++ "index-" ++ toString 7 ++ ".htm") "") :=
  ⟨(get_pagination_url_spec "https" "www.chrono24.com" "/rolex/index.htm" ""
      (by decide) (by decide) (by decide) (by decide) 7).1,
   (get_pagination_url_spec "https" "www.chrono24.com" "/rolex/index.htm" ""
      (by decide) (by decide) (by decide) (by decide) 7).2.1 (by decide) "/rolex/"
      rfl⟩

theorem charsIsPrefixOf_append : ∀ (p t : List Char), p.isPrefixOf (p ++ t) = true := by
  intro p t
  induction p with
  | nil => simp [List.isPrefixOf]
  | cons a as ih => simp [List.isPrefixOf, ih]

theorem isPrefixOf_mem : ∀ {a l : List Char}, a.isPrefixOf l = true →
    ∀ c ∈ a, c ∈ l := by
  intro a
  induction a with
  | nil => intro l _ c hc; cases hc
  | cons x xs ih =>
    intro l h c hc
    cases l with
    | nil => cases h
    | cons y ys =>
      simp only [List.isPrefixOf, Bool.and_eq_true, beq_iff_eq] at h
      rcases List.mem_cons.mp hc with rfl | hc
      · rw [h.1]
        exact List.mem_cons_self y ys
      · exact List.mem_cons_of_mem y (ih h.2 c hc)

theorem dropWhile_head_not {p : Char → Bool} :
    ∀ {l : List Char} {c : Char} {cs : List Char},
      l.dropWhile p = c :: cs → p c = false := by
  intro l
  induction l with
  | nil => intro c cs h; cases h
  | cons a as ih =>
    intro c cs h
    rw [List.dropWhile_cons] at h
    by_cases hp : p a = true
    · rw [if_pos hp] at h
      exact ih h
    · rw [if_neg hp] at h
      injection h with h1 _
      rw [← h1]
      cases hb : p a
      · rfl
      · exact absurd hb hp

theorem split_fst_nil_or_head (ch c : Char) (cs : List Char) :
    (splitAtFirstChar ch (c :: cs)).1 = []
      ∨ ∃ t, (splitAtFirstChar ch (c :: cs)).1 = c :: t := by
  simp only [splitAtFirstChar]
  by_cases h : c = ch
  · rw [if_pos h]
    left
    rfl
  · rw [if_neg h]
    right
    exact ⟨_, rfl⟩

/-- Parsing a scheme-less relative reference (no `:`, no characters removed
by cleaning, no leading C0/space, not starting with `//`): the default scheme
is adopted, there is no netloc, and the remainder is split into
path/query/fragment by `finishSplit`. -/
theorem urlsplit_noscheme (ds rel : List Char)
    (hcolon : ':' ∉ rel)
    (hcharsOk : ∀ a ∈ rel, isUnsafeUrlChar a = false)
    (hhead : rel = [] ∨ ∃ c cs, rel = c :: cs ∧ isC0OrSpace c = false)
    (hns : ¬(rel.take 2 = ['/', '/'])) :
    urlsplitChars ds rel = Except.ok (finishSplit ds [] rel) := by
  have hdrop : rel.dropWhile isC0OrSpace = rel := by
    rcases hhead with rfl | ⟨c, cs, rfl, hc⟩
    · rfl
    · rw [List.dropWhile_cons, hc]
      simp only [Bool.false_eq_true, if_false]
  have hfil : rel.filter (fun c => !(isUnsafeUrlChar c)) = rel := by
    apply List.filter_eq_self.mpr
    intro a ha
    rw [hcharsOk a ha]
    rfl
  have hss : splitScheme ds rel = (ds, rel) := by
    unfold splitScheme
    rw [splitAtFirstChar_not_mem hcolon]
  simp only [urlsplitChars]
  rw [hdrop, hfil, hss]
  dsimp only
  rw [if_neg hns]

/-- `urlunsplit` on the chrono24 origin always yields a chrono24-origin
URL: the scheme/netloc skeleton `https://www.chrono24.com` is a prefix of
its output, for every path/query/fragment. -/
theorem urlunsplit_chrono_eq (path2 query fragment : List Char) :
    urlunsplitChars ⟨"https".data, "www.chrono24.com".data, path2, query, fragment⟩
      = "https://www.chrono24.com".data ++
        ((if path2 ≠ [] ∧ path2.head? ≠ some '/' then '/' :: path2 else path2)
          ++ ((if query ≠ [] then '?' :: query else [])
            ++ (if fragment ≠ [] then '#' :: fragment else []))) := by
  have hch : "https://www.chrono24.com".data
      = "https".data ++ ':' :: '/' :: '/' :: "www.chrono24.com".data := by decide
  unfold urlunsplitChars
  dsimp only
  rw [if_pos (Or.inl (by decide : ("www.chrono24.com".data : List Char) ≠ []))]
  rw [if_pos (by decide : ("https".data : List Char) ≠ [])]
  by_cases hq : query = [] <;> by_cases hf : fragment = [] <;>
    simp [hq, hf, hch, List.append_assoc]

/-- Claim C10 (amended).  `make_absolute_url` leaves URLs that start with
`http://` or `https://` unchanged; for strings carrying no URL scheme (no
`:`) and none of the characters CPython's URL cleaning strips, the result is
an absolute URL on the `https://www.chrono24.com` origin; and on both these
classes of inputs the function is idempotent.  (Inputs carrying another
scheme, e.g. `ftp:`/`mailto:`, are returned by `urljoin` unchanged and are
not absolutized onto the chrono24 origin — see the counterexample.) -/
theorem make_absolute_url_amended (u : String) :
    (strStartsWith u "http://" = true ∨ strStartsWith u "https://" = true →
      make_absolute_url u = Except.ok u)
    ∧ (cleanRel u → ∃ rest, make_absolute_url u
        = Except.ok (String.mk ("https://www.chrono24.com".data ++ rest)))
    ∧ (strStartsWith u "http://" = true ∨ strStartsWith u "https://" = true
        ∨ cleanRel u →
      ∃ r, make_absolute_url u = Except.ok r ∧ make_absolute_url r = Except.ok r) := by
  have hpart1 : ∀ v : String,
      strStartsWith v "http://" = true ∨ strStartsWith v "https://" = true →
      make_absolute_url v = Except.ok v := by
    intro v hv
    unfold make_absolute_url
    have hor : (strStartsWith v "http://" || strStartsWith v "https://") = true := by
      rcases hv with h | h <;> simp [h]
    rw [hor]
    rfl
  have hbase : urlsplitChars [] BASE_URL.data
      = Except.ok ⟨"https".data, "www.chrono24.com".data, [], [], []⟩ := by rfl
  have hpart2 : cleanRel u → ∃ rest, make_absolute_url u
      = Except.ok (String.mk ("https://www.chrono24.com".data ++ rest)) := by
    rintro ⟨h1, h2, h3, h4, h5⟩
    have hns1 : strStartsWith u "http://" = false := by
      cases hb : strStartsWith u "http://"
      · rfl
      · exact absurd (isPrefixOf_mem hb ':' (by decide)) h1
    have hns2 : strStartsWith u "https://" = false := by
      cases hb : strStartsWith u "https://"
      · rfl
      · exact absurd (isPrefixOf_mem hb ':' (by decide)) h1
    have hcond : (!(strStartsWith u "http://" || strStartsWith u "https://")) = true := by
      rw [hns1, hns2]
      rfl
    unfold make_absolute_url
    rw [hcond, if_pos rfl]
    rcases h5 with hrelnil | hh20
    · rw [hrelnil]
      refine ⟨[], ?_⟩
      rw [List.append_nil]
      rfl
    · cases hrel : u.data.dropWhile (fun c => c = '/') with
      | nil =>
        rw [hrel] at hh20
        simp at hh20
      | cons c cs =>
        rw [hrel] at hh20
        have hc20 : 0x20 < c.toNat := by simpa using hh20
        have hcs2 : isC0OrSpace c = false := by
          unfold isC0OrSpace
          exact decide_eq_false (by omega)
        have hcne : c ≠ '/' := of_decide_eq_false (dropWhile_head_not hrel)
        have hsubcc : ∀ x ∈ (c :: cs), x ∈ u.data := by
          intro x hx
          rw [← hrel] at hx
          exact (List.dropWhile_sublist _).subset hx
        have hrcolon : ':' ∉ (c :: cs) := fun hh => h1 (hsubcc ':' hh)
        have hcharsOk2 : ∀ a ∈ (c :: cs), isUnsafeUrlChar a = false := by
          intro a ha
          have hau := hsubcc a ha
          have t1 : a ≠ '\t' := fun hh => h2 (hh ▸ hau)
          have t2 : a ≠ '\r' := fun hh => h3 (hh ▸ hau)
          have t3 : a ≠ '\n' := fun hh => h4 (hh ▸ hau)
          unfold isUnsafeUrlChar
          simp [t1, t2, t3]
        have hns' : ¬((c :: cs).take 2 = ['/', '/']) := by
          intro hh
          have hc : c = '/' := by
            have := congrArg List.head? hh
            simpa using this
          exact hcne hc
        have hsplit2 : urlsplitChars "https".data (c :: cs)
            = Except.ok (finishSplit "https".data [] (c :: cs)) :=
          urlsplit_noscheme _ _ hrcolon hcharsOk2 (Or.inr ⟨c, cs, rfl, hcs2⟩) hns'
        have hsch : (finishSplit "https".data [] (c :: cs)).scheme = "https".data := rfl
        have hnl : (finishSplit "https".data [] (c :: cs)).netloc = [] := rfl
        unfold urljoinChars
        rw [if_neg (by decide : ¬(BASE_URL.data = []))]
        rw [if_neg (List.cons_ne_nil c cs)]
        rw [hbase]
        dsimp only
        rw [hsplit2]
        dsimp only
        rw [hsch, hnl]
        rw [if_neg (by
          rintro (h | h)
          · exact h rfl
          · exact h (by decide))]
        rw [if_neg (fun hand => hand.2 rfl)]
        rw [if_pos (by decide : ("https".data : List Char) ∈ uses_netloc)]
        by_cases hpe : (finishSplit "https".data [] (c :: cs)).path = []
        · rw [if_pos hpe]
          have hq' : (if (finishSplit "https".data [] (c :: cs)).query = []
              then ([] : List Char)
              else (finishSplit "https".data [] (c :: cs)).query)
              = (finishSplit "https".data [] (c :: cs)).query := by
            by_cases hh : (finishSplit "https".data [] (c :: cs)).query = []
            · simp [hh]
            · simp [hh]
          rw [hq']
          rw [urlunsplit_chrono_eq]
          exact ⟨_, rfl⟩
        · rw [if_neg hpe]
          rw [urlunsplit_chrono_eq]
          exact ⟨_, rfl⟩
  refine ⟨hpart1 u, hpart2, ?_⟩
  intro h
  rcases h with h | h | h
  · exact ⟨u, hpart1 u (Or.inl h), hpart1 u (Or.inl h)⟩
  · exact ⟨u, hpart1 u (Or.inr h), hpart1 u (Or.inr h)⟩
  · obtain ⟨rest, hrest⟩ := hpart2 h
    refine ⟨String.mk ("https://www.chrono24.com".data ++ rest), hrest, ?_⟩
    apply hpart1
    right
    show ("https://".data).isPrefixOf
      (String.mk ("https://www.chrono24.com".data ++ rest)).data = true
    rw [show ("https://www.chrono24.com".data : List Char)
        = "https://".data ++ "www.chrono24.com".data from by decide]
    rw [List.append_assoc]
    exact charsIsPrefixOf_append _ _

/-- Claim C10 counterexample.  The input `"ftp://x"` does not start with
`http://`/`https://`, yet `make_absolute_url` returns it unchanged (CPython
`urljoin` returns a relative URL with a foreign scheme as-is): the result is
not an absolute URL on the `https://www.chrono24.com` origin. -/
theorem make_absolute_url_cex :
    make_absolute_url "ftp://x" = Except.ok "ftp://x"
    ∧ strStartsWith "ftp://x" "https://www.chrono24.com" = false
    ∧ strStartsWith "ftp://x" "https://" = false := by
  refine ⟨by rfl, by rfl, by rfl⟩

/-- Claim C10 witness: an absolute URL kept unchanged, a schemeless relative
reference absolutized onto the chrono24 origin, and idempotence on it. -/
theorem make_absolute_url_amended_witness :
    make_absolute_url "https://www.chrono24.com/rolex"
      = Except.ok "https://www.chrono24.com/rolex"
    ∧ (∃ rest, make_absolute_url "watch/rolex-123.htm"
        = Except.ok (String.mk ("https://www.chrono24.com".data ++ rest)))
    ∧ ∃ r, make_absolute_url "watch/rolex-123.htm" = Except.ok r
        ∧ make_absolute_url r = Except.ok r :=
  ⟨(make_absolute_url_amended "https://www.chrono24.com/rolex").1 (Or.inr (by decide)),
   (make_absolute_url_amended "watch/rolex-123.htm").2.1 (by decide),
   (make_absolute_url_amended "watch/rolex-123.htm").2.2 (Or.inr (Or.inr (by decide)))⟩

end Scraper
